import Mathlib

/-!
Verification development for the gpu-usage-waybar format-string engine.

Modelling conventions (shallow embedding of the Rust sources):
* Rust `String` buffers and `&str` slices are modelled as `List Char`; Rust's
  byte indices are modelled as character indices.  Every index the code uses
  (`rfind('.')`, `buffer.len()`, `truncate`) falls on a character boundary of
  the relevant characters ('.', '0' are one byte), so the logic is invariant
  under this reindexing.
* `f32` values are modelled as exact decimal numbers `m * 10^(-e)` and f32
  arithmetic (uom unit conversions, division for the memory ratio) as exact
  rational/decimal arithmetic; the sign of a floating-point zero is not
  modelled.  Rust's `Display` for floats (shortest round-tripping decimal)
  is modelled as the decimal expansion with trailing fractional zeros and a
  bare trailing dot removed; `{:.p}` formatting rounds half-to-even, as the
  Rust formatting machinery does.
* The regex `\{(\w+)(?::(\w+)(?:\.(\d+))?)?\}` of `formatter::get_regex` is
  modelled by a hand-rolled scanner with identical match semantics on ASCII
  (`\w` is modelled as ASCII `[0-9A-Za-z_]`); since no character class in the
  pattern overlaps with the delimiters `{ } : .`, the regex is deterministic
  and the scanner reproduces the leftmost non-overlapping matches of
  `captures_iter`.
* Fallible Rust code is `Except`/`Option`-valued; a Rust `unwrap` panic is
  modelled as `Option.none`.
-/

namespace GpuUsage

/-- A decimal number `m * 10^(-e)`: the exact-decimal model of an `f32`. -/
structure DecVal where
  m : Int
  e : Nat
deriving DecidableEq, Repr

/-- Division by `2^k`, exact: `m/10^e / 2^k = m*5^k / 10^(e+k)`. -/
def divPow2 (v : DecVal) (k : Nat) : DecVal := ⟨v.m * (5 : Int) ^ k, v.e + k⟩

/-- Division by `10^k`, exact. -/
def divPow10 (v : DecVal) (k : Nat) : DecVal := ⟨v.m, v.e + k⟩

/-- Multiplication by a natural number, exact. -/
def mulNat (v : DecVal) (n : Nat) : DecVal := ⟨v.m * (n : Int), v.e⟩

/-- Exact decimal subtraction. -/
def dSub (a b : DecVal) : DecVal :=
  let e := max a.e b.e
  ⟨a.m * (10 : Int) ^ (e - a.e) - b.m * (10 : Int) ^ (e - b.e), e⟩

/-- The rational value of a decimal. -/
def decToRat (v : DecVal) : ℚ := (v.m : ℚ) / (10 : ℚ) ^ v.e

/-! ## Units (`src/formatter/units.rs`) -/

/-- `MemUnit` of units.rs: binary/decimal byte and bit units. -/
inductive MemUnit
  | KiB | MiB | GiB | KB | MB | GB | Kib | Mib | Gib | Kb | Mb | Gb
deriving DecidableEq, Repr

/-- `TemperatureUnit` of units.rs. -/
inductive TemperatureUnit
  | celsius | fahrenheit | kelvin
deriving DecidableEq, Repr

/-- `PowerUnit` of units.rs. -/
inductive PowerUnit
  | watt | kiloWatt
deriving DecidableEq, Repr

/-- `MemUnit::compute`: uom conversion from the canonical byte count. -/
def MemUnit.compute : MemUnit → DecVal → DecVal
  | .KiB, v => divPow2 v 10
  | .MiB, v => divPow2 v 20
  | .GiB, v => divPow2 v 30
  | .KB, v => divPow10 v 3
  | .MB, v => divPow10 v 6
  | .GB, v => divPow10 v 9
  | .Kib, v => divPow2 (mulNat v 8) 10
  | .Mib, v => divPow2 (mulNat v 8) 20
  | .Gib, v => divPow2 (mulNat v 8) 30
  | .Kb, v => divPow10 (mulNat v 8) 3
  | .Mb, v => divPow10 (mulNat v 8) 6
  | .Gb, v => divPow10 (mulNat v 8) 9

/-- `TemperatureUnit::compute`: uom conversion from the canonical kelvin value. -/
def TemperatureUnit.compute : TemperatureUnit → DecVal → DecVal
  | .celsius, v => dSub v ⟨27315, 2⟩
  | .fahrenheit, v => dSub ⟨v.m * 18, v.e + 1⟩ ⟨45967, 2⟩
  | .kelvin, v => v

/-- `PowerUnit::compute`: uom conversion from the canonical watt value. -/
def PowerUnit.compute : PowerUnit → DecVal → DecVal
  | .watt, v => v
  | .kiloWatt, v => divPow10 v 3

/-- strum `EnumString` for `MemUnit` (exact, case-sensitive variant names). -/
def MemUnit.fromStr (s : String) : Option MemUnit :=
  if s = "KiB" then some .KiB else if s = "MiB" then some .MiB
  else if s = "GiB" then some .GiB else if s = "KB" then some .KB
  else if s = "MB" then some .MB else if s = "GB" then some .GB
  else if s = "Kib" then some .Kib else if s = "Mib" then some .Mib
  else if s = "Gib" then some .Gib else if s = "Kb" then some .Kb
  else if s = "Mb" then some .Mb else if s = "Gb" then some .Gb
  else none

/-- strum `EnumString` for `TemperatureUnit`: serializations "c"/"f"/"k",
ASCII-case-insensitive. -/
def TemperatureUnit.fromStr (s : String) : Option TemperatureUnit :=
  if s = "c" ∨ s = "C" then some .celsius
  else if s = "f" ∨ s = "F" then some .fahrenheit
  else if s = "k" ∨ s = "K" then some .kelvin
  else none

/-- strum `EnumString` for `PowerUnit`: serializations "w"/"kw", case-sensitive. -/
def PowerUnit.fromStr (s : String) : Option PowerUnit :=
  if s = "w" then some .watt else if s = "kw" then some .kiloWatt else none

/-! ## Field model (`src/gpu_status/fields.rs`) -/

/-- `U8Field`: the unitless 0-100 percentage fields. -/
inductive U8Field
  | gpuUtilization | memRw | decoderUtilization | encoderUtilization | fanSpeed
deriving DecidableEq, Repr

/-- `MemField`: the information-quantity fields. -/
inductive MemField
  | memUsed | memTotal | tx | rx
deriving DecidableEq, Repr

/-- strum `EnumString` (snake_case) for `U8Field`. -/
def U8Field.fromStr (s : String) : Option U8Field :=
  if s = "gpu_utilization" then some .gpuUtilization
  else if s = "mem_rw" then some .memRw
  else if s = "decoder_utilization" then some .decoderUtilization
  else if s = "encoder_utilization" then some .encoderUtilization
  else if s = "fan_speed" then some .fanSpeed
  else none

/-- strum `EnumString` (snake_case) for `MemField`. -/
def MemField.fromStr (s : String) : Option MemField :=
  if s = "mem_used" then some .memUsed
  else if s = "mem_total" then some .memTotal
  else if s = "tx" then some .tx
  else if s = "rx" then some .rx
  else none

/-- `Field` of fields.rs.  The Rust `Variable` chunk payload.  The source's
`Mem`/`Temperature`/`Power` struct variants carry unit and optional precision. -/
inductive Field
  | u8 : U8Field → Field
  | mem : MemField → MemUnit → Option Nat → Field
  | temperature : TemperatureUnit → Option Nat → Field
  | power : PowerUnit → Option Nat → Field
  | pState
  | pLevel
  | memUtilization
  | unknown
deriving DecidableEq, Repr

/-- `UnitParseError` of fields.rs. -/
inductive UnitParseError
  | noUnit
  | precision : String → UnitParseError
  | memory : String → UnitParseError
  | temperature : String → UnitParseError
  | power : String → UnitParseError
deriving DecidableEq, Repr

/-- `FormatSegments`: the `(name, unit?, precision?)` split of a placeholder,
either produced by `FormatSegments::parse` or taken from the regex captures. -/
structure FormatSegments where
  field : String
  unit : Option String
  precision : Option String
deriving DecidableEq, Repr

/-- Digits-to-number accumulator. -/
def digitsToNat (cs : List Char) : Nat :=
  cs.foldl (fun a c => a * 10 + (c.toNat - 48)) 0

/-- Rust `usize::from_str`: an optional leading '+', one or more ASCII digits,
value at most `2^64 - 1` (overflow is a parse error). -/
def parseUsize (s : String) : Option Nat :=
  let cs := match s.data with | '+' :: r => r | r => r
  if cs.isEmpty then none
  else if cs.all Char.isDigit then
    let v := digitsToNat cs
    if v < 2 ^ 64 then some v else none
  else none

/-- The `parse_unit_and_precision!` macro of `Field::from_str`: requires a
unit string, parses it with `fromStr`, then parses the optional precision. -/
def parseUnitPrec {U : Type} (fromStr : String → Option U)
    (err : String → UnitParseError) (seg : FormatSegments) :
    Except UnitParseError (U × Option Nat) :=
  match seg.unit with
  | none => .error .noUnit
  | some uname =>
    match fromStr uname with
    | none => .error (err uname)
    | some u =>
      match seg.precision with
      | none => .ok (u, none)
      | some p =>
        match parseUsize p with
        | none => .error (.precision p)
        | some n => .ok (u, some n)

/-- The match body of `Field::from_str` (fields.rs lines 73-102), shared with
`Field::try_from(FormatSegments)` which applies the same dispatch to the regex
captures: recognized no-unit names first, then the unit-bearing names, then
`MemField`/`U8Field` via strum, else `Unknown` (never an error). -/
def fieldOfSegments (seg : FormatSegments) : Except UnitParseError Field :=
  if seg.field = "p_level" then .ok .pLevel
  else if seg.field = "p_state" then .ok .pState
  else if seg.field = "mem_utilization" then .ok .memUtilization
  else if seg.field = "power" then
    (parseUnitPrec PowerUnit.fromStr UnitParseError.power seg).map
      (fun up => .power up.1 up.2)
  else if seg.field = "temperature" then
    (parseUnitPrec TemperatureUnit.fromStr UnitParseError.temperature seg).map
      (fun up => .temperature up.1 up.2)
  else
    match MemField.fromStr seg.field with
    | some mf =>
      (parseUnitPrec MemUnit.fromStr UnitParseError.memory seg).map
        (fun up => .mem mf up.1 up.2)
    | none =>
      match U8Field.fromStr seg.field with
      | some uf => .ok (.u8 uf)
      | none => .ok .unknown

/-- `split_once c`: split a list at the first occurrence of `c`. -/
def splitOnce (c : Char) : List Char → Option (List Char × List Char)
  | [] => none
  | x :: xs =>
    if x = c then some ([], xs)
    else (splitOnce c xs).map (fun ab => (x :: ab.1, ab.2))

/-- `FormatSegments::parse` of fields.rs: split at the first ':' and then the
first '.'. -/
def FormatSegments.parse (s : String) : FormatSegments :=
  match splitOnce ':' s.data with
  | none => ⟨s, none, none⟩
  | some (f, rest) =>
    match splitOnce '.' rest with
    | none => ⟨String.mk f, some (String.mk rest), none⟩
    | some (u, p) => ⟨String.mk f, some (String.mk u), some (String.mk p)⟩

/-- `Field::from_str` of fields.rs. -/
def Field.fromStr (s : String) : Except UnitParseError Field :=
  fieldOfSegments (FormatSegments.parse s)

/-! ## Template scanner (`formatter::get_regex`, `\{(\w+)(?::(\w+)(?:\.(\d+))?)?\}`) -/

/-- `\w` of the pattern, modelled on ASCII: `[0-9A-Za-z_]`. -/
def wordChar (c : Char) : Bool := c.isAlphanum || c = '_'

/-- Attempt to match the placeholder regex at the head of `cs`; on success
return the captured segments and the input after the match.  The pattern's
character classes `\w`/`\d` never contain `{ } : .`, so greedy matching is
deterministic and this function is exactly the regex's behaviour at one
position. -/
def matchPlaceholder (cs : List Char) : Option (FormatSegments × List Char) :=
  match cs with
  | '{' :: r =>
    let name := r.takeWhile wordChar
    if name.isEmpty then none else
    match r.drop name.length with
    | '}' :: r2 => some (⟨String.mk name, none, none⟩, r2)
    | ':' :: r3 =>
      let unit := r3.takeWhile wordChar
      if unit.isEmpty then none else
      (match r3.drop unit.length with
       | '}' :: r5 => some (⟨String.mk name, some (String.mk unit), none⟩, r5)
       | '.' :: r6 =>
         let prec := r6.takeWhile Char.isDigit
         if prec.isEmpty then none else
         (match r6.drop prec.length with
          | '}' :: r7 =>
            some (⟨String.mk name, some (String.mk unit), some (String.mk prec)⟩, r7)
          | _ => none)
       | _ => none)
    | _ => none
  | _ => none

/-- Fuelled scanning loop: at each position try the regex; on a match, emit the
static prefix accumulated so far (reversed in `acc`) with the captures and
continue after the match, as `captures_iter` does.  `fuel > cs.length`
guarantees the fuel never runs out. -/
def scanA : Nat → List Char → List Char → List (List Char × FormatSegments) × List Char
  | 0, cs, acc => ([], acc.reverse ++ cs)
  | fuel + 1, cs, acc =>
    match cs with
    | [] => ([], acc.reverse)
    | c :: rest =>
      match matchPlaceholder (c :: rest) with
      | some (segs, rest2) =>
        let p := scanA fuel rest2 []
        ((acc.reverse, segs) :: p.1, p.2)
      | none => scanA fuel rest (c :: acc)

/-- All leftmost non-overlapping regex matches of a template: the list of
(static text before the match, captures) pairs, and the trailing static text. -/
def scan (cs : List Char) : List (List Char × FormatSegments) × List Char :=
  scanA (cs.length + 1) cs []

/-! ## Format parser (`formatter::parse`, `Chunk`, `State`) -/

/-- `Chunk` of formatter/mod.rs: `static` is `Chunk::Static`, `var` is
`Chunk::Variable`. -/
inductive Chunk
  | static : String → Chunk
  | var : Field → Chunk
deriving DecidableEq, Repr

/-- The loop body of `formatter::parse` over the regex matches: push the
static run if non-empty, parse the captures into a `Field` (failing fast on
the first `UnitParseError`), push the `Variable` chunk, and finally push the
trailing static run (even when empty). -/
def parseGo : List (List Char × FormatSegments) → List Char →
    Except UnitParseError (List Chunk)
  | [], fin => .ok [Chunk.static (String.mk fin)]
  | (pre, sg) :: ms, fin =>
    match fieldOfSegments sg with
    | .error e => .error e
    | .ok f =>
      match parseGo ms fin with
      | .error e => .error e
      | .ok cs =>
        .ok (if pre.isEmpty then Chunk.var f :: cs
             else Chunk.static (String.mk pre) :: Chunk.var f :: cs)

/-- `formatter::parse`. -/
def parse (t : String) : Except UnitParseError (List Chunk) :=
  parseGo (scan t.data).1 (scan t.data).2

/-! ## Number formatting (the `write!` targets of `write_field`) -/

/-- One decimal digit as a character (callers only pass `n < 10`). -/
def digitChr : Nat → Char
  | 0 => '0' | 1 => '1' | 2 => '2' | 3 => '3' | 4 => '4'
  | 5 => '5' | 6 => '6' | 7 => '7' | 8 => '8' | _ => '9'

/-- Fuelled decimal digits of a natural number, most significant first. -/
def natDigits : Nat → Nat → List Char
  | 0, _ => []
  | fuel + 1, n =>
    if n < 10 then [digitChr n] else natDigits fuel (n / 10) ++ [digitChr (n % 10)]

/-- Decimal digits of a natural number. -/
def natStr (n : Nat) : List Char := natDigits (n + 1) n

/-- Left-pad a digit run with '0' to length `p`. -/
def padZeros (p : Nat) (ds : List Char) : List Char :=
  List.replicate (p - ds.length) '0' ++ ds

/-- Print the integer `n` as a decimal with exactly `p` fractional digits,
reading `n` as the value scaled by `10^p` (`p = 0`: no decimal point). -/
def intFixed (n : Int) (p : Nat) : List Char :=
  (if n < 0 then ['-'] else []) ++
    (if p = 0 then natStr n.natAbs
     else natStr (n.natAbs / 10 ^ p) ++ '.' :: padZeros p (natStr (n.natAbs % 10 ^ p)))

/-- The full decimal expansion of `v` with exactly `v.e` fractional digits. -/
def fmtRaw (v : DecVal) : List Char := intFixed v.m v.e

/-- Round `m / d` to an integer, half to even (`d > 0`; floor division with a
non-negative remainder via `ediv`/`emod`). -/
def halfEvenDiv (m d : Int) : Int :=
  let q := m.ediv d
  let r := m.emod d
  if d < 2 * r then q + 1
  else if 2 * r < d then q
  else if q.emod 2 = 0 then q else q + 1

/-- `v * 10^p` rounded to an integer, half to even: the digit-cut rounding the
Rust float formatter applies for `{:.p}`. -/
def roundScaled (v : DecVal) (p : Nat) : Int :=
  if v.e ≤ p then v.m * (10 : Int) ^ (p - v.e) else halfEvenDiv v.m ((10 : Int) ^ (v.e - p))

/-- Rust `write!("{:.p}", v)` for a float `v`: round to `p` fractional digits
(half to even) and print with exactly `p` fractional digits. -/
def fmtFixed (v : DecVal) (p : Nat) : List Char := intFixed (roundScaled v p) p

/-! ## `formatter::trim_trailing_zeros` -/

/-- Index of the last '.' in `cs` (Rust `buf.rfind('.')`). -/
def lastDotIdx : List Char → Option Nat
  | [] => none
  | c :: cs =>
    match lastDotIdx cs with
    | some i => some (i + 1)
    | none => if c = '.' then some 0 else none

/-- Length of the trailing run of '0' characters. -/
def countTrailing (cs : List Char) : Nat :=
  (cs.reverse.takeWhile (fun c => c == '0')).length

/-- `formatter::trim_trailing_zeros`: if the last '.' of the buffer lies
strictly after `scanEnd`, truncate trailing '0' digits down to (but not past)
the position right after that dot, and drop the dot itself if only it is
left.  The while loop of the source stops at the first non-'0' byte or at
`last_dot_pos + 1`, i.e. ends at `max (d+1) (length - countTrailing)`. -/
def trimTrailingZeros (buf : List Char) (scanEnd : Nat) : List Char :=
  match lastDotIdx buf with
  | none => buf
  | some d =>
    if d ≤ scanEnd then buf
    else
      let e1 := max (d + 1) (buf.length - countTrailing buf)
      let e2 := if e1 = d + 1 then d else e1
      buf.take e2

/-- Rust `write!("{}", v)` for a float: the shortest decimal expansion, i.e.
the full expansion with trailing fractional zeros and a bare trailing dot
removed. -/
def displayF32 (v : DecVal) : List Char := trimTrailingZeros (fmtRaw v) 0

/-! ## GPU status data (`src/gpu_status/mod.rs`) -/

/-- `PState` of gpu_status/mod.rs (strum `Display` prints the variant name). -/
inductive PState
  | p0 | p1 | p2 | p3 | p4 | p5 | p6 | p7 | p8 | p9 | p10 | p11 | p12 | p13 | p14 | p15
  | unknown
deriving DecidableEq, Repr

/-- strum `Display` of `PState`. -/
def PState.display : PState → String
  | .p0 => "P0" | .p1 => "P1" | .p2 => "P2" | .p3 => "P3" | .p4 => "P4"
  | .p5 => "P5" | .p6 => "P6" | .p7 => "P7" | .p8 => "P8" | .p9 => "P9"
  | .p10 => "P10" | .p11 => "P11" | .p12 => "P12" | .p13 => "P13" | .p14 => "P14"
  | .p15 => "P15" | .unknown => "Unknown"

/-- `amdgpu_sysfs::gpu_handle::PerformanceLevel`, an external collaborator
enum, modelled minimally with its lowercase display names. -/
inductive PerformanceLevel
  | auto | low | high | manual
deriving DecidableEq, Repr

/-- `Display` of `PerformanceLevel`. -/
def PerformanceLevel.display : PerformanceLevel → String
  | .auto => "auto" | .low => "low" | .high => "high" | .manual => "manual"

/-- `GpuStatusData`: one metrics snapshot.  u8 percentages are `Nat`,
`uom` quantities are exact decimals in their canonical unit (bytes, kelvin,
watt). -/
structure GpuStatusData where
  hasRunningProcesses : Bool := false
  poweredOn : Bool := false
  gpuUtilization : Option Nat := none
  memUsed : Option DecVal := none
  memTotal : Option DecVal := none
  memRw : Option Nat := none
  decoderUtilization : Option Nat := none
  encoderUtilization : Option Nat := none
  temperature : Option DecVal := none
  power : Option DecVal := none
  pState : Option PState := none
  pLevel : Option PerformanceLevel := none
  fanSpeed : Option Nat := none
  tx : Option DecVal := none
  rx : Option DecVal := none
deriving Repr

/-- Rust `as u8` on a float: saturating cast (negative to 0, above 255 to 255). -/
def u8sat (z : Int) : Nat := if z < 0 then 0 else min z.toNat 255

/-- Rust `f32::round`: round half away from zero.  Mathlib's `round` is round
half up, which agrees on non-negative arguments. -/
def rustRound (q : ℚ) : Int := if q < 0 then -round (-q) else round q

namespace GpuStatusData

/-- `GpuStatusData::compute_mem_usage`: `((mem_used / mem_total) * 100).round()
as u8` when both operands are present.  A zero `mem_total` gives IEEE
NaN (for `0/0`, cast to 0) or an infinity (cast saturating). -/
def computeMemUsage (d : GpuStatusData) : Option Nat :=
  match d.memUsed, d.memTotal with
  | some u, some t =>
    if decToRat t = 0 then
      some (if 0 < decToRat u then 255 else 0)
    else
      some (u8sat (rustRound (decToRat u / decToRat t * 100)))
  | _, _ => none

/-- `GpuStatusData::get_mem_field`. -/
def getMemField (d : GpuStatusData) : MemField → Option DecVal
  | .memUsed => d.memUsed
  | .memTotal => d.memTotal
  | .tx => d.tx
  | .rx => d.rx

/-- The `U8` cases of `get_simple_field_display`. -/
def getU8 (d : GpuStatusData) : U8Field → Option Nat
  | .gpuUtilization => d.gpuUtilization
  | .memRw => d.memRw
  | .decoderUtilization => d.decoderUtilization
  | .encoderUtilization => d.encoderUtilization
  | .fanSpeed => d.fanSpeed

/-- `GpuStatusData::get_simple_field_display`, already rendered to text: the
source's `SimpleField` enum corresponds to the `u8`, `pState`, `pLevel` and
`memUtilization` cases of `Field`. -/
def getSimpleDisplay (d : GpuStatusData) : Field → Option (List Char)
  | .u8 uf => (d.getU8 uf).map natStr
  | .pState => d.pState.map (fun p => p.display.data)
  | .pLevel => d.pLevel.map (fun p => p.display.data)
  | .memUtilization => d.computeMemUsage.map natStr
  | _ => none

end GpuStatusData

/-- `WriteFieldError` of gpu_status/mod.rs. -/
inductive WriteFieldError
  | fieldIsNone
deriving DecidableEq, Repr

instance {ε α : Type} [DecidableEq ε] [DecidableEq α] : DecidableEq (Except ε α) :=
  fun x y =>
    match x, y with
    | .ok a, .ok b =>
      if h : a = b then isTrue (by rw [h]) else isFalse (fun hc => h (by cases hc; rfl))
    | .error a, .error b =>
      if h : a = b then isTrue (by rw [h]) else isFalse (fun hc => h (by cases hc; rfl))
    | .ok _, .error _ => isFalse (fun hc => by cases hc)
    | .error _, .ok _ => isFalse (fun hc => by cases hc)

/-- Render a unit-bearing value: `{:.p}` when a precision was given, `{}`
(natural display) otherwise — the `u!` macro body of `write_field`. -/
def fmtValue (v : DecVal) : Option Nat → List Char
  | some p => fmtFixed v p
  | none => displayF32 v

/-- `GpuStatusData::write_field`: append the rendered field to `buffer`
(returning the new buffer), or report `FieldIsNone` leaving the buffer as it
was; afterwards `trim_trailing_zeros` runs with the pre-append length as the
scan boundary.  `Field::Unknown` appends the literal "N/A". -/
def GpuStatusData.writeField (d : GpuStatusData) (f : Field) (buffer : List Char) :
    Except WriteFieldError (List Char) :=
  let scanEnd := buffer.length
  let core : Except WriteFieldError (List Char) :=
    match f with
    | .mem mf u p =>
      match d.getMemField mf with
      | none => .error .fieldIsNone
      | some v => .ok (buffer ++ fmtValue (u.compute v) p)
    | .temperature u p =>
      match d.temperature with
      | none => .error .fieldIsNone
      | some v => .ok (buffer ++ fmtValue (u.compute v) p)
    | .power u p =>
      match d.power with
      | none => .error .fieldIsNone
      | some v => .ok (buffer ++ fmtValue (u.compute v) p)
    | .unknown => .ok (buffer ++ ("N/A").data)
    | f =>
      match d.getSimpleDisplay f with
      | none => .error .fieldIsNone
      | some s => .ok (buffer ++ s)
  core.map (fun b => trimTrailingZeros b scanEnd)

/-- `GpuStatusData::is_field_unavailable`: `Unknown` is always unavailable,
otherwise a field is unavailable when its value is `None`. -/
def GpuStatusData.isFieldUnavailable (d : GpuStatusData) : Field → Bool
  | .unknown => true
  | .mem mf _ _ => (d.getMemField mf).isNone
  | .temperature _ _ => d.temperature.isNone
  | .power _ _ => d.power.isNone
  | f => (d.getSimpleDisplay f).isNone

/-- `formatter::State`: the parsed chunk list and the reusable output buffer. -/
structure State where
  chunks : List Chunk
  buffer : String
deriving DecidableEq, Repr

/-- One step of `State::assemble`: statics verbatim; variables via
`write_field`, with "N/A" on `FieldIsNone`. -/
def assembleStep (d : GpuStatusData) (buf : List Char) : Chunk → List Char
  | .static s => buf ++ s.data
  | .var f =>
    match d.writeField f buf with
    | .ok b => b
    | .error _ => buf ++ ("N/A").data

/-- `State::assemble`: clear the buffer, then fold the chunks into it. -/
def State.assemble (st : State) (d : GpuStatusData) : State :=
  { st with buffer := String.mk (st.chunks.foldl (assembleStep d) []) }

/-- `GpuStatusData::get_text`: "Off" when not powered on, "Idle" when no
running processes, otherwise assemble the chunks; returns the displayed text
together with the (possibly updated) state. -/
def GpuStatusData.getText (d : GpuStatusData) (st : State) : String × State :=
  if d.poweredOn = false then ("Off", st)
  else if d.hasRunningProcesses = false then ("Idle", st)
  else
    let st' := st.assemble d
    (st'.buffer, st')

/-- `GpuStatusData::get_tooltip`: like `get_text` with the powered-off/idle
literals "GPU powered off" / "GPU idle". -/
def GpuStatusData.getTooltip (d : GpuStatusData) (st : State) : String × State :=
  if d.poweredOn = false then ("GPU powered off", st)
  else if d.hasRunningProcesses = false then ("GPU idle", st)
  else
    let st' := st.assemble d
    (st'.buffer, st')

/-! ## Availability-pruning pass (`TooltipConfig::assemble_availables`) -/

/-- `DEFAULT_FORMAT` of config/structs.rs. -/
def DEFAULT_FORMAT : String :=
  "GPU: {gpu_utilization}%\nRENDER: {render_utilization}%\nVIDEO: {video_utilization}%\nMEM USED: {mem_used:MiB.0}/{mem_total:MiB} MiB ({mem_utilization}%)\nMEM R/W: {mem_rw}%\nDEC: {decoder_utilization}%\nENC: {encoder_utilization}%\nTEMP: {temperature:c}°C\nPOWER: {power:w}W\nPSTATE: {p_state}\nPLEVEL: {p_level}\nFAN SPEED: {fan_speed}%\nTX: {tx:MiB.3} MiB/s\nRX: {rx:MiB.3} MiB/s"

/-- Rust `split_inclusive(c)`: split after each occurrence of `c`, keeping the
separator; the empty string yields no pieces. -/
def splitInclusive (c : Char) : List Char → List (List Char)
  | [] => []
  | x :: xs =>
    if x = c then [x] :: splitInclusive c xs
    else
      match splitInclusive c xs with
      | [] => [[x]]
      | l :: ls => (x :: l) :: ls

/-- The regex matches of a single line (`re.captures_iter(line)`). -/
def lineMatches (l : List Char) : List (List Char × FormatSegments) := (scan l).1

/-- The `.all(...)` loop body of `assemble_availables` over one line's
captures: `Field::try_from(...).unwrap()` then `is_field_available`.  An
`unwrap` panic is `none`; `false` short-circuits, so later captures (and
hence later panics) are not evaluated. -/
def lineAllAvailableGo (avail : Field → Bool) :
    List (List Char × FormatSegments) → Option Bool
  | [] => some true
  | (_, sg) :: ms =>
    match fieldOfSegments sg with
    | .error _ => none
    | .ok f => if avail f then lineAllAvailableGo avail ms else some false

/-- Whether all placeholder fields of a line are available (`none` = panic). -/
def lineAllAvailable (avail : Field → Bool) (l : List Char) : Option Bool :=
  lineAllAvailableGo avail (lineMatches l)

/-- The line loop of `TooltipConfig::assemble_availables`: retained lines are
pushed in order; a panic anywhere aborts. -/
def assembleAvailablesGo (avail : Field → Bool) : List (List Char) → Option (List Char)
  | [] => some []
  | l :: ls =>
    match lineAllAvailable avail l with
    | none => none
    | some b => (assembleAvailablesGo avail ls).map (fun r => if b then l ++ r else r)

/-- `TooltipConfig::assemble_availables`, parameterised by the collaborator's
availability check `avail` (`GpuHandle::is_field_available`): keep exactly the
lines of `DEFAULT_FORMAT` all of whose placeholder fields are available. -/
def assembleAvailables (avail : Field → Bool) : Option String :=
  (assembleAvailablesGo avail (splitInclusive '\n' DEFAULT_FORMAT.data)).map String.mk

/-- The `Field`s of a list of captures, `none` if any fails to parse. -/
def segFieldsOf : List (List Char × FormatSegments) → Option (List Field)
  | [] => some []
  | m :: ms =>
    match fieldOfSegments m.2 with
    | .error _ => none
    | .ok f => (segFieldsOf ms).map (f :: ·)

/-- Specification-side view of one line: the `Field`s of all its placeholders,
`none` if any fails to parse. -/
def lineFields (l : List Char) : Option (List Field) :=
  segFieldsOf (lineMatches l)

/-- Specification-side retention test: every placeholder on the line parses to
an available field (lines with zero placeholders are always retained). -/
def lineOk (avail : Field → Bool) (l : List Char) : Bool :=
  match lineFields l with
  | some fs => fs.all avail
  | none => false

/-- Specification-side pruning result: the concatenation, in original order,
of the retained lines of the default template, each verbatim with its
terminator. -/
def prunedSpec (avail : Field → Bool) : List Char :=
  ((splitInclusive '\n' DEFAULT_FORMAT.data).filter (lineOk avail)).flatten

/-! ## Further specification-side definitions used by the claims -/

/-- The first `UnitParseError` among a template's captures, in match order. -/
def firstSegError : List (List Char × FormatSegments) → Option UnitParseError
  | [] => none
  | m :: ms =>
    match fieldOfSegments m.2 with
    | .error e => some e
    | .ok _ => firstSegError ms

/-- All field names recognized by `Field::from_str` (directly or via the
`MemField`/`U8Field` strum parsers). -/
def recognizedNames : List String :=
  ["p_level", "p_state", "mem_utilization", "power", "temperature",
   "mem_used", "mem_total", "tx", "rx",
   "gpu_utilization", "mem_rw", "decoder_utilization", "encoder_utilization",
   "fan_speed"]

/-- The field names that require a unit suffix. -/
def unitRequiredNames : List String :=
  ["temperature", "power", "mem_used", "mem_total", "tx", "rx"]

/-! ## Auxiliary lemmas: `lastDotIdx`, trailing-zero counts -/

theorem lastDotIdx_append_some {ys : List Char} {i : Nat} (xs : List Char)
    (h : lastDotIdx ys = some i) :
    lastDotIdx (xs ++ ys) = some (xs.length + i) := by
  induction xs with
  | nil => simpa using h
  | cons x xs ih =>
    simp only [List.cons_append, lastDotIdx, List.append_eq, ih, List.length_cons]
    congr 1
    omega

theorem lastDotIdx_append_none {ys : List Char} (xs : List Char)
    (h : lastDotIdx ys = none) :
    lastDotIdx (xs ++ ys) = lastDotIdx xs := by
  induction xs with
  | nil => simpa using h
  | cons x xs ih => simp only [List.cons_append, lastDotIdx, List.append_eq, ih]

theorem lastDotIdx_eq_none {cs : List Char} (h : '.' ∉ cs) : lastDotIdx cs = none := by
  induction cs with
  | nil => rfl
  | cons c cs ih =>
    simp only [List.mem_cons, not_or] at h
    simp [lastDotIdx, ih h.2, Ne.symm h.1]

theorem lastDotIdx_lt_length {cs : List Char} {d : Nat} (h : lastDotIdx cs = some d) :
    d < cs.length := by
  induction cs generalizing d with
  | nil => simp [lastDotIdx] at h
  | cons c cs ih =>
    simp only [lastDotIdx] at h
    cases h' : lastDotIdx cs with
    | some i =>
      rw [h'] at h
      cases h
      have := ih h'
      simp [List.length_cons]; omega
    | none =>
      rw [h'] at h
      by_cases hc : c = '.'
      · simp [hc] at h; cases h; simp
      · simp [hc] at h

theorem dot_mem_of_lastDotIdx {cs : List Char} {d : Nat} (h : lastDotIdx cs = some d) :
    '.' ∈ cs := by
  by_contra hn
  rw [lastDotIdx_eq_none hn] at h
  cases h

theorem takeWhile_append_all {p : Char → Bool} {xs : List Char} (ys : List Char)
    (h : ∀ c ∈ xs, p c = true) :
    (xs ++ ys).takeWhile p = xs ++ ys.takeWhile p := by
  induction xs with
  | nil => simp
  | cons x xs ih =>
    have hx : p x = true := h x (by simp)
    simp only [List.cons_append, List.takeWhile_cons_of_pos hx, List.cons.injEq, true_and]
    exact ih (fun c hc => h c (by simp [hc]))

theorem takeWhile_append_stop {p : Char → Bool} {xs : List Char} (ys : List Char)
    (h : ∃ c ∈ xs, p c = false) :
    (xs ++ ys).takeWhile p = xs.takeWhile p := by
  induction xs with
  | nil => obtain ⟨c, hc, -⟩ := h; cases hc
  | cons x xs ih =>
    by_cases hx : p x = true
    · simp only [List.cons_append, List.takeWhile_cons_of_pos hx, List.cons.injEq, true_and]
      apply ih
      obtain ⟨c, hc, hpc⟩ := h
      rcases List.mem_cons.mp hc with rfl | hc'
      · rw [hx] at hpc; cases hpc
      · exact ⟨c, hc', hpc⟩
    · simp [List.takeWhile_cons_of_neg hx]

theorem countTrailing_le (cs : List Char) : countTrailing cs ≤ cs.length := by
  have h := List.Sublist.length_le (List.takeWhile_sublist (l := cs.reverse)
    (p := fun c => c == '0'))
  simpa [countTrailing] using h

theorem countTrailing_append {ys : List Char} (xs : List Char)
    (h : ∃ c ∈ ys, (c == '0') = false) :
    countTrailing (xs ++ ys) = countTrailing ys := by
  unfold countTrailing
  rw [List.reverse_append, takeWhile_append_stop]
  obtain ⟨c, hc, hpc⟩ := h
  exact ⟨c, by simp [hc], hpc⟩

theorem dropWhile_idem (p : Char → Bool) (l : List Char) :
    (l.dropWhile p).dropWhile p = l.dropWhile p := by
  induction l with
  | nil => rfl
  | cons x xs ih =>
    by_cases h : p x
    · simp [List.dropWhile_cons_of_pos h, ih]
    · simp [List.dropWhile_cons_of_neg h]

theorem exists_not_of_dropWhile_ne_nil {p : Char → Bool} {l : List Char}
    (h : l.dropWhile p ≠ []) : ∃ c ∈ l, p c = false := by
  induction l with
  | nil => simp at h
  | cons x xs ih =>
    by_cases hx : p x
    · rw [List.dropWhile_cons_of_pos hx] at h
      obtain ⟨c, hc, hpc⟩ := ih h
      exact ⟨c, by simp [hc], hpc⟩
    · exact ⟨x, by simp, by simpa using hx⟩

/-! ## The trim function: frame and structure lemmas -/

theorem trim_of_no_dot {cs : List Char} (h : '.' ∉ cs) (k : Nat) :
    trimTrailingZeros cs k = cs := by
  simp [trimTrailingZeros, lastDotIdx_eq_none h]

theorem lastDotIdx_single {f : List Char} (a : List Char) (hdf : '.' ∉ f) :
    lastDotIdx (a ++ '.' :: f) = some a.length := by
  have h1 : lastDotIdx ('.' :: f) = some 0 := by
    simp [lastDotIdx, lastDotIdx_eq_none hdf]
  simpa using lastDotIdx_append_some a h1

/-- Trimming a buffer made of an untouched prefix `buf` followed by a freshly
appended `s`, with the scan boundary at the junction, trims `s` alone:
provided `s`'s last dot (if any) is not its first character, which holds for
every number rendering (they begin with a sign or a digit). -/
theorem trim_append (buf s : List Char)
    (hs : lastDotIdx s = none ∨ ∃ ds, lastDotIdx s = some ds ∧ 1 ≤ ds) :
    trimTrailingZeros (buf ++ s) buf.length = buf ++ trimTrailingZeros s 0 := by
  rcases hs with hnone | ⟨ds, hds, hds1⟩
  · simp only [trimTrailingZeros, hnone, lastDotIdx_append_none buf hnone]
    cases hb : lastDotIdx buf with
    | none => rfl
    | some d =>
      have hd := lastDotIdx_lt_length hb
      simp [Nat.le_of_lt hd]
  · have hmem : '.' ∈ s := dot_mem_of_lastDotIdx hds
    have hz : countTrailing (buf ++ s) = countTrailing s :=
      countTrailing_append buf ⟨'.', hmem, by decide⟩
    have hzle : countTrailing s ≤ s.length := countTrailing_le s
    have hdlt : ds < s.length := lastDotIdx_lt_length hds
    simp only [trimTrailingZeros, hds, lastDotIdx_append_some buf hds]
    have hnotle : ¬ (buf.length + ds ≤ buf.length) := by omega
    have h0 : ¬ (ds ≤ 0) := by omega
    rw [if_neg hnotle, if_neg h0, hz]
    have hlen : (buf ++ s).length = buf.length + s.length := by simp
    rw [hlen]
    have hmax : max (buf.length + ds + 1) (buf.length + s.length - countTrailing s)
        = buf.length + max (ds + 1) (s.length - countTrailing s) := by omega
    rw [hmax]
    by_cases he : max (ds + 1) (s.length - countTrailing s) = ds + 1
    · rw [he]
      rw [if_pos (by omega), if_pos rfl]
      exact List.take_append ds
    · rw [if_neg (by omega), if_neg he]
      exact List.take_append _

theorem countTrailing_dot_cons (f : List Char) :
    countTrailing ('.' :: f) = (f.reverse.takeWhile (fun c => c == '0')).length := by
  unfold countTrailing
  rw [List.reverse_cons]
  by_cases hall : ∀ c ∈ f.reverse, (c == '0') = true
  · rw [takeWhile_append_all _ hall]
    have h1 : List.takeWhile (fun c => c == '0') ['.'] = [] := by decide
    rw [h1, List.append_nil, List.takeWhile_eq_self_iff.mpr hall]
  · push_neg at hall
    obtain ⟨c, hc, hpc⟩ := hall
    rw [takeWhile_append_stop _ ⟨c, hc, by simpa using hpc⟩]

/-- Full description of a trim at boundary 0 of `integer ++ '.' ++ fraction`:
the trailing zeros of the fraction go, and the dot too if nothing remains. -/
theorem trim_structured (a f : List Char) (ha : a ≠ []) (hda : '.' ∉ a) (hdf : '.' ∉ f) :
    trimTrailingZeros (a ++ '.' :: f) 0 =
      if (f.reverse.dropWhile (fun c => c == '0')).reverse = [] then a
      else a ++ '.' :: (f.reverse.dropWhile (fun c => c == '0')).reverse := by
  have ha1 : 1 ≤ a.length := by
    cases a with
    | nil => exact absurd rfl ha
    | cons x xs => simp
  have hidx : lastDotIdx (a ++ '.' :: f) = some a.length := lastDotIdx_single a hdf
  have hz : countTrailing (a ++ '.' :: f) = countTrailing ('.' :: f) :=
    countTrailing_append a ⟨'.', by simp, by decide⟩
  have hsplit := List.takeWhile_append_dropWhile (p := fun c => c == '0') (l := f.reverse)
  have htw : (f.reverse.takeWhile (fun c => c == '0')).length
      + (f.reverse.dropWhile (fun c => c == '0')).length = f.length := by
    have h := congrArg List.length hsplit
    rw [List.length_append, List.length_reverse] at h
    exact h
  set tw := f.reverse.takeWhile (fun c => c == '0') with htwdef
  set dw := f.reverse.dropWhile (fun c => c == '0') with hdwdef
  have hfr : f = dw.reverse ++ tw.reverse := by
    have h2 : (tw ++ dw).reverse = f.reverse.reverse := congrArg List.reverse hsplit
    simpa [List.reverse_append] using h2.symm
  simp only [trimTrailingZeros, hidx, hz, countTrailing_dot_cons, ← htwdef]
  rw [if_neg (by omega)]
  have hlen : (a ++ '.' :: f).length = a.length + 1 + f.length := by
    rw [List.length_append, List.length_cons]
    omega
  rw [hlen]
  have hmax : max (a.length + 1) (a.length + 1 + f.length - tw.length)
      = a.length + 1 + (f.length - tw.length) := by omega
  rw [hmax]
  have hfl : f.length - tw.length = dw.length := by omega
  rw [hfl]
  by_cases hdw : dw = []
  · rw [if_pos (by simp [hdw]), hdw, List.reverse_nil, if_pos rfl]
    exact List.take_left a ('.' :: f)
  · have hne : dw.length ≠ 0 := fun h => hdw (List.length_eq_zero.mp h)
    have hrev : dw.reverse ≠ [] := by simp [hdw]
    have hcond : ¬ (a.length + 1 + dw.length = a.length + 1) := by omega
    rw [if_neg hrev, if_neg hcond]
    have h1 : a.length + 1 + dw.length = a.length + (1 + dw.length) := by omega
    rw [h1, List.take_append (1 + dw.length)]
    have h2 : List.take (1 + dw.length) ('.' :: f) = '.' :: List.take dw.length f := by
      rw [Nat.add_comm 1 dw.length]
      rfl
    rw [h2]
    have h3 : List.take dw.length f = dw.reverse := by
      conv_lhs => rw [hfr]
      rw [show dw.length = dw.reverse.length from (List.length_reverse dw).symm]
      exact List.take_left dw.reverse tw.reverse
    rw [h3]

/-! ## Shape of the rendered numbers -/

theorem digitChr_ne_dot (n : Nat) : digitChr n ≠ '.' := by
  unfold digitChr
  split <;> decide

theorem natDigits_no_dot (fuel n : Nat) : '.' ∉ natDigits fuel n := by
  induction fuel generalizing n with
  | zero => simp [natDigits]
  | succ fuel ih =>
    unfold natDigits
    by_cases h : n < 10
    · simp only [if_pos h, List.mem_singleton]
      exact fun hc => digitChr_ne_dot n hc.symm
    · simp only [if_neg h, List.mem_append, List.mem_singleton, not_or]
      exact ⟨ih _, fun hc => digitChr_ne_dot (n % 10) hc.symm⟩

theorem natStr_no_dot (n : Nat) : '.' ∉ natStr n := natDigits_no_dot (n + 1) n

theorem natStr_ne_nil (n : Nat) : natStr n ≠ [] := by
  unfold natStr natDigits
  by_cases h : n < 10
  · simp [if_pos h]
  · simp [if_neg h]

theorem padZeros_no_dot {ds : List Char} (p : Nat) (h : '.' ∉ ds) :
    '.' ∉ padZeros p ds := by
  unfold padZeros
  simp only [List.mem_append, not_or, List.mem_replicate]
  exact ⟨fun hc => by simp at hc, h⟩

theorem intFixed_no_dot (n : Int) : '.' ∉ intFixed n 0 := by
  unfold intFixed
  simp only [if_pos rfl, List.mem_append, not_or]
  constructor
  · split <;> simp
  · exact natStr_no_dot _

/-- For a positive precision, `intFixed` is `integer ++ '.' ++ fraction` with
a dot-free non-empty integer part and dot-free fraction. -/
theorem intFixed_split (n : Int) {p : Nat} (hp : p ≠ 0) :
    ∃ a f, intFixed n p = a ++ '.' :: f ∧ a ≠ [] ∧ '.' ∉ a ∧ '.' ∉ f := by
  refine ⟨(if n < 0 then ['-'] else []) ++ natStr (n.natAbs / 10 ^ p),
    padZeros p (natStr (n.natAbs % 10 ^ p)), ?_, ?_, ?_, ?_⟩
  · unfold intFixed
    rw [if_neg hp, List.append_assoc]
  · intro hc
    have := congrArg List.length hc
    simp only [List.length_append, List.length_nil] at this
    have h1 : natStr (n.natAbs / 10 ^ p) ≠ [] := natStr_ne_nil _
    have h2 : (natStr (n.natAbs / 10 ^ p)).length ≠ 0 :=
      fun h => h1 (List.length_eq_zero.mp h)
    omega
  · simp only [List.mem_append, not_or]
    refine ⟨?_, natStr_no_dot _⟩
    split <;> simp
  · exact padZeros_no_dot p (natStr_no_dot _)

/-- The `{:.p}` rendering either has no dot (`p = 0`) or its last dot is at a
positive index: the hypothesis of `trim_append`. -/
theorem fmtFixed_dot_shape (v : DecVal) (p : Nat) :
    lastDotIdx (fmtFixed v p) = none ∨
      ∃ ds, lastDotIdx (fmtFixed v p) = some ds ∧ 1 ≤ ds := by
  by_cases hp : p = 0
  · subst hp
    exact .inl (lastDotIdx_eq_none (intFixed_no_dot _))
  · obtain ⟨a, f, heq, ha, hda, hdf⟩ := intFixed_split (roundScaled v p) hp
    refine .inr ⟨a.length, ?_, ?_⟩
    · rw [fmtFixed, heq]
      exact lastDotIdx_single a hdf
    · cases a with
      | nil => exact absurd rfl ha
      | cons x xs => simp

/-- The natural display of a value: either dot-free, or of the structured form
with a non-empty fraction that does not end in '0'.  Implies both the
`trim_append` hypothesis and idempotence of the trim. -/
theorem displayF32_spec (v : DecVal) :
    (lastDotIdx (displayF32 v) = none ∨
      ∃ ds, lastDotIdx (displayF32 v) = some ds ∧ 1 ≤ ds) ∧
    trimTrailingZeros (displayF32 v) 0 = displayF32 v := by
  by_cases hp : v.e = 0
  · have hnd : '.' ∉ fmtRaw v := by
      rw [fmtRaw, hp]
      exact intFixed_no_dot _
    have hid : displayF32 v = fmtRaw v := trim_of_no_dot hnd 0
    rw [hid]
    exact ⟨.inl (lastDotIdx_eq_none hnd), trim_of_no_dot hnd 0⟩
  · obtain ⟨a, f, heq, ha, hda, hdf⟩ := intFixed_split v.m hp
    have hd : displayF32 v =
        if (f.reverse.dropWhile (fun c => c == '0')).reverse = [] then a
        else a ++ '.' :: (f.reverse.dropWhile (fun c => c == '0')).reverse := by
      rw [displayF32, fmtRaw, heq]
      exact trim_structured a f ha hda hdf
    set fr := (f.reverse.dropWhile (fun c => c == '0')).reverse with hfrdef
    have hdfr : '.' ∉ fr := by
      intro hc
      apply hdf
      have h1 : '.' ∈ f.reverse.dropWhile (fun c => c == '0') := by
        simpa [hfrdef] using hc
      have h2 : '.' ∈ f.reverse := (List.dropWhile_sublist _).mem h1
      simpa using h2
    by_cases hfr : fr = []
    · rw [if_pos hfr] at hd
      rw [hd]
      exact ⟨.inl (lastDotIdx_eq_none hda), trim_of_no_dot hda 0⟩
    · rw [if_neg hfr] at hd
      rw [hd]
      have ha1 : 1 ≤ a.length := by
        cases a with
        | nil => exact absurd rfl ha
        | cons x xs => simp
      refine ⟨.inr ⟨a.length, lastDotIdx_single a hdfr, ha1⟩, ?_⟩
      rw [trim_structured a fr ha hda hdfr]
      have hidem : (fr.reverse.dropWhile (fun c => c == '0')).reverse = fr := by
        rw [hfrdef]
        rw [List.reverse_reverse, dropWhile_idem]
      rw [hidem, if_neg hfr]

/-! ## Scanner and parser lemmas -/

theorem string_mk_data (s : String) : String.mk s.data = s := by
  cases s
  rfl

theorem scanA_no_match : ∀ (fuel : Nat) (cs acc : List Char),
    (scanA fuel cs acc).1 = [] → (scanA fuel cs acc).2 = acc.reverse ++ cs := by
  intro fuel
  induction fuel with
  | zero => intro cs acc _; rfl
  | succ fuel ih =>
    intro cs acc h
    cases cs with
    | nil => simp [scanA]
    | cons c rest =>
      cases hm : matchPlaceholder (c :: rest) with
      | some v =>
        exfalso
        simp [scanA, hm] at h
      | none =>
        have h' : (scanA fuel rest (c :: acc)).1 = [] := by
          simpa [scanA, hm] using h
        have := ih rest (c :: acc) h'
        simp only [scanA, hm]
        rw [this]
        simp

theorem matchPlaceholder_simple {name : List Char} (hne : name ≠ [])
    (hw : ∀ c ∈ name, wordChar c = true) :
    matchPlaceholder ('{' :: (name ++ ['}'])) = some (⟨String.mk name, none, none⟩, []) := by
  have h1 : (name ++ ['}']).takeWhile wordChar = name := by
    have h0 : List.takeWhile wordChar ['}'] = [] := by decide
    rw [takeWhile_append_all _ hw, h0, List.append_nil]
  have h2 : (name ++ ['}']).drop name.length = ['}'] := List.drop_left name ['}']
  simp only [matchPlaceholder, h1, h2]
  rw [if_neg (by simpa [List.isEmpty_iff] using hne)]

theorem scan_simple {name : List Char} (hne : name ≠ [])
    (hw : ∀ c ∈ name, wordChar c = true) :
    scan ('{' :: (name ++ ['}'])) = ([([], ⟨String.mk name, none, none⟩)], []) := by
  have hlen : ('{' :: (name ++ ['}'])).length = name.length + 1 + 1 := by
    simp
  rw [scan, hlen]
  simp [scanA, matchPlaceholder_simple hne hw]

theorem parseGo_spec : ∀ (ms : List (List Char × FormatSegments)) (fin : List Char),
    (∀ e, firstSegError ms = some e → parseGo ms fin = .error e) ∧
    (firstSegError ms = none → ∃ cs, parseGo ms fin = .ok cs) := by
  intro ms
  induction ms with
  | nil =>
    intro fin
    exact ⟨fun e he => by simp [firstSegError] at he, fun _ => ⟨_, rfl⟩⟩
  | cons m ms ih =>
    intro fin
    cases hf : fieldOfSegments m.2 with
    | error e0 =>
      constructor
      · intro e he
        have : e = e0 := by
          simp [firstSegError, hf] at he
          exact he.symm
        subst this
        obtain ⟨pre, sg⟩ := m
        simp only [parseGo]
        simp only [FormatSegments.mk] at hf ⊢
        rw [hf]
      · intro hnone
        exfalso
        simp [firstSegError, hf] at hnone
    | ok f =>
      have hfirst : firstSegError (m :: ms) = firstSegError ms := by
        simp [firstSegError, hf]
      constructor
      · intro e he
        rw [hfirst] at he
        obtain ⟨pre, sg⟩ := m
        simp only [parseGo]
        rw [hf, (ih fin).1 e he]
      · intro hnone
        rw [hfirst] at hnone
        obtain ⟨cs, hcs⟩ := (ih fin).2 hnone
        obtain ⟨pre, sg⟩ := m
        refine ⟨if pre.isEmpty then Chunk.var f :: cs
          else Chunk.static (String.mk pre) :: Chunk.var f :: cs, ?_⟩
        simp only [parseGo]
        rw [hf, hcs]

/-! ## Pruning-pass lemmas -/

theorem lineAllAvailableGo_eq (avail : Field → Bool) :
    ∀ (ms : List (List Char × FormatSegments)) (fs : List Field),
      segFieldsOf ms = some fs → lineAllAvailableGo avail ms = some (fs.all avail) := by
  intro ms
  induction ms with
  | nil =>
    intro fs h
    simp only [segFieldsOf] at h
    cases h
    rfl
  | cons m ms ih =>
    intro fs h
    cases hf : fieldOfSegments m.2 with
    | error e => simp [segFieldsOf, hf] at h
    | ok f =>
      simp only [segFieldsOf, hf] at h
      cases hrest : segFieldsOf ms with
      | none => rw [hrest] at h; cases h
      | some fs' =>
        rw [hrest] at h
        cases h
        simp only [lineAllAvailableGo, hf]
        by_cases ha : avail f
        · rw [if_pos ha, ih fs' hrest]
          simp [ha]
        · rw [if_neg ha]
          simp [List.all_cons, ha]

theorem assembleAvailablesGo_eq (avail : Field → Bool) :
    ∀ ls : List (List Char), (∀ l ∈ ls, (lineFields l).isSome) →
      assembleAvailablesGo avail ls = some ((ls.filter (lineOk avail)).flatten) := by
  intro ls
  induction ls with
  | nil => intro _; rfl
  | cons l ls ih =>
    intro h
    obtain ⟨fs, hfs⟩ := Option.isSome_iff_exists.mp (h l (by simp))
    have hline : lineAllAvailable avail l = some (fs.all avail) :=
      lineAllAvailableGo_eq avail _ fs hfs
    have hok : lineOk avail l = fs.all avail := by
      unfold lineOk
      rw [hfs]
    have hih := ih (fun x hx => h x (by simp [hx]))
    cases hb : fs.all avail with
    | true => simp [assembleAvailablesGo, hline, hih, hb, List.filter_cons, hok]
    | false => simp [assembleAvailablesGo, hline, hih, hb, List.filter_cons, hok]

theorem assembleAvailables_eq (avail : Field → Bool) :
    assembleAvailables avail = some (String.mk (prunedSpec avail)) := by
  rw [assembleAvailables, prunedSpec,
    assembleAvailablesGo_eq avail _ (by decide)]
  rfl

/-! ## Claim theorems -/

/-- Claim C3: the trailing-zero trim removes characters only from the newly
appended region — the result is a prefix of the buffer cut no earlier than the
scan boundary, so every character below the boundary is unchanged — and a
buffer whose last decimal point sits at or before the boundary is returned
entirely unchanged. -/
theorem claim_C3 (buf : List Char) (k : Nat) (hk : k ≤ buf.length) :
    (∃ e, k ≤ e ∧ e ≤ buf.length ∧ trimTrailingZeros buf k = buf.take e) ∧
    (∀ d, lastDotIdx buf = some d → d ≤ k → trimTrailingZeros buf k = buf) := by
  constructor
  · cases hb : lastDotIdx buf with
    | none =>
      refine ⟨buf.length, hk, le_refl _, ?_⟩
      simp only [trimTrailingZeros, hb]
      exact (List.take_length buf).symm
    | some d =>
      have hdlt : d < buf.length := lastDotIdx_lt_length hb
      by_cases hdk : d ≤ k
      · refine ⟨buf.length, hk, le_refl _, ?_⟩
        simp only [trimTrailingZeros, hb, if_pos hdk]
        exact (List.take_length buf).symm
      · have hct : countTrailing buf ≤ buf.length := countTrailing_le buf
        simp only [trimTrailingZeros, hb, if_neg hdk]
        by_cases he : max (d + 1) (buf.length - countTrailing buf) = d + 1
        · exact ⟨d, by omega, by omega, by rw [if_pos he]⟩
        · exact ⟨max (d + 1) (buf.length - countTrailing buf), by omega, by omega,
            by rw [if_neg he]⟩
  · intro d hb hdk
    simp only [trimTrailingZeros, hb, if_pos hdk]

/-- Witness for C3: the spec's example — the buffer "100.00 120" with the scan
boundary after the first value is returned unchanged, the earlier decimal
point triggering no trimming. -/
theorem claim_C3_witness :
    trimTrailingZeros ("100.00 120").data 7 = ("100.00 120").data :=
  (claim_C3 ("100.00 120").data 7 (by decide)).2 3 (by decide) (by decide)

/-- Claim C2, amended: with an explicit precision `p`, `write_field` appends
the value rendered with exactly `p` fractional digits and then trims trailing
zero digits (and a resulting bare decimal point) from the appended region, so
the output has at most — not always exactly — `p` fractional digits. -/
theorem claim_C2_amended :
    (∀ (d : GpuStatusData) (buf : List Char) (mf : MemField) (u : MemUnit)
        (p : Nat) (v : DecVal), d.getMemField mf = some v →
      d.writeField (.mem mf u (some p)) buf =
        .ok (buf ++ trimTrailingZeros (fmtFixed (u.compute v) p) 0)) ∧
    (∀ (d : GpuStatusData) (buf : List Char) (u : TemperatureUnit)
        (p : Nat) (v : DecVal), d.temperature = some v →
      d.writeField (.temperature u (some p)) buf =
        .ok (buf ++ trimTrailingZeros (fmtFixed (u.compute v) p) 0)) ∧
    (∀ (d : GpuStatusData) (buf : List Char) (u : PowerUnit)
        (p : Nat) (v : DecVal), d.power = some v →
      d.writeField (.power u (some p)) buf =
        .ok (buf ++ trimTrailingZeros (fmtFixed (u.compute v) p) 0)) := by
  refine ⟨?_, ?_, ?_⟩
  · intro d buf mf u p v h
    simp only [GpuStatusData.writeField, h, Except.map, fmtValue]
    rw [trim_append buf _ (fmtFixed_dot_shape _ p)]
  · intro d buf u p v h
    simp only [GpuStatusData.writeField, h, Except.map, fmtValue]
    rw [trim_append buf _ (fmtFixed_dot_shape _ p)]
  · intro d buf u p v h
    simp only [GpuStatusData.writeField, h, Except.map, fmtValue]
    rw [trim_append buf _ (fmtFixed_dot_shape _ p)]

/-- Witness for the amended C2: the spec's example — a temperature of 35.12345
degrees Celsius (stored as 308.27345 kelvin) renders as "35.12" with precision
2 and as "35" with precision 0. -/
theorem claim_C2_amended_witness :
    GpuStatusData.writeField { temperature := some ⟨30827345, 5⟩ }
        (.temperature .celsius (some 2)) [] = .ok ("35.12").data ∧
    GpuStatusData.writeField { temperature := some ⟨30827345, 5⟩ }
        (.temperature .celsius (some 0)) [] = .ok ("35").data := by
  constructor
  · rw [claim_C2_amended.2.1 _ [] .celsius 2 ⟨30827345, 5⟩ rfl]
    decide
  · rw [claim_C2_amended.2.1 _ [] .celsius 0 ⟨30827345, 5⟩ rfl]
    decide

/-- Counterexample to C2 as stated: a power of 1.5 W with precision 2 is
written as "1.5", not the exactly-two-fractional-digit rendering "1.50" —
`write_field` trims trailing zeros even when a precision was specified. -/
theorem claim_C2_counterexample :
    GpuStatusData.writeField { power := some ⟨15, 1⟩ } (.power .watt (some 2)) []
        = .ok ("1.5").data ∧
    fmtFixed (PowerUnit.watt.compute ⟨15, 1⟩) 2 = ("1.50").data ∧
    ("1.5").data ≠ ("1.50").data := by
  decide

/-- Claim C7: with no precision, `write_field` appends the value's natural
decimal representation with its trailing fractional zeros — and a resulting
bare decimal point — trimmed (`displayF32` is by definition the trim at
boundary 0 of the full decimal expansion `fmtRaw`), and the pre-existing
buffer contents are untouched. -/
theorem claim_C7 :
    (∀ (d : GpuStatusData) (buf : List Char) (mf : MemField) (u : MemUnit)
        (v : DecVal), d.getMemField mf = some v →
      d.writeField (.mem mf u none) buf = .ok (buf ++ displayF32 (u.compute v))) ∧
    (∀ (d : GpuStatusData) (buf : List Char) (u : TemperatureUnit)
        (v : DecVal), d.temperature = some v →
      d.writeField (.temperature u none) buf = .ok (buf ++ displayF32 (u.compute v))) ∧
    (∀ (d : GpuStatusData) (buf : List Char) (u : PowerUnit)
        (v : DecVal), d.power = some v →
      d.writeField (.power u none) buf = .ok (buf ++ displayF32 (u.compute v))) := by
  refine ⟨?_, ?_, ?_⟩
  · intro d buf mf u v h
    simp only [GpuStatusData.writeField, h, Except.map, fmtValue]
    rw [trim_append buf _ (displayF32_spec (u.compute v)).1,
      (displayF32_spec (u.compute v)).2]
  · intro d buf u v h
    simp only [GpuStatusData.writeField, h, Except.map, fmtValue]
    rw [trim_append buf _ (displayF32_spec (u.compute v)).1,
      (displayF32_spec (u.compute v)).2]
  · intro d buf u v h
    simp only [GpuStatusData.writeField, h, Except.map, fmtValue]
    rw [trim_append buf _ (displayF32_spec (u.compute v)).1,
      (displayF32_spec (u.compute v)).2]

/-- Witness for C7: the spec's examples — an internal value 35.50000 W renders
as "35.5" and 35.00000 W renders as "35", the bare dot removed. -/
theorem claim_C7_witness :
    GpuStatusData.writeField { power := some ⟨3550000, 5⟩ } (.power .watt none) []
        = .ok ("35.5").data ∧
    GpuStatusData.writeField { power := some ⟨3500000, 5⟩ } (.power .watt none) []
        = .ok ("35").data := by
  constructor
  · rw [claim_C7.2.2 _ [] .watt ⟨3550000, 5⟩ rfl]
    decide
  · rw [claim_C7.2.2 _ [] .watt ⟨3500000, 5⟩ rfl]
    decide

/-- Claim C6, amended: `mem_utilization` is unavailable exactly when
`mem_used` or `mem_total` is; when both are available (and the total is not
zero) it equals the half-away-from-zero rounding of `used/total*100` put
through the saturating `u8` cast — not always that rounding itself, which can
exceed 255. -/
theorem claim_C6_amended (d : GpuStatusData) :
    (d.computeMemUsage = none ↔ d.memUsed = none ∨ d.memTotal = none) ∧
    (∀ u t, d.memUsed = some u → d.memTotal = some t → decToRat t ≠ 0 →
      d.computeMemUsage = some (u8sat (rustRound (decToRat u / decToRat t * 100)))) := by
  constructor
  · unfold GpuStatusData.computeMemUsage
    cases hu : d.memUsed <;> cases ht : d.memTotal <;> simp
    split <;> simp
  · intro u t hu ht htz
    unfold GpuStatusData.computeMemUsage
    rw [hu, ht]
    simp only [if_neg htz]

/-- Witness for the amended C6: 1 byte used of 2 total gives exactly 50
percent. -/
theorem claim_C6_amended_witness :
    GpuStatusData.computeMemUsage { memUsed := some ⟨1, 0⟩, memTotal := some ⟨2, 0⟩ }
      = some 50 := by
  rw [(claim_C6_amended _).2 ⟨1, 0⟩ ⟨2, 0⟩ rfl rfl (by norm_num [decToRat])]
  norm_num [decToRat, rustRound, u8sat, round_eq]
  decide

/-- Counterexample to C6 as stated: with 3 bytes used of 1 total the code
computes 255 (the `as u8` cast saturates), not the claimed
`round(mem_used / mem_total * 100) = 300`. -/
theorem claim_C6_counterexample :
    GpuStatusData.computeMemUsage { memUsed := some ⟨3, 0⟩, memTotal := some ⟨1, 0⟩ }
        = some 255 ∧
    rustRound (decToRat ⟨3, 0⟩ / decToRat ⟨1, 0⟩ * 100) = 300 ∧
    (255 : Nat) ≠ 300 := by
  refine ⟨?_, ?_, by decide⟩
  · rw [(claim_C6_amended _).2 ⟨3, 0⟩ ⟨1, 0⟩ rfl rfl (by norm_num [decToRat])]
    norm_num [decToRat, rustRound, u8sat, round_eq]
  · norm_num [decToRat, rustRound, round_eq]

/-- Claim C9: when the GPU is not powered on, `get_text`/`get_tooltip` return
the literals "Off"/"GPU powered off"; when powered on but idle, "Idle"/"GPU
idle" — in both cases the state (hence its buffer) is untouched; only when
powered on with running processes are the chunks assembled. -/
theorem claim_C9 (d : GpuStatusData) (st : State) :
    (d.poweredOn = false →
      d.getText st = ("Off", st) ∧ d.getTooltip st = ("GPU powered off", st)) ∧
    (d.poweredOn = true → d.hasRunningProcesses = false →
      d.getText st = ("Idle", st) ∧ d.getTooltip st = ("GPU idle", st)) ∧
    (d.poweredOn = true → d.hasRunningProcesses = true →
      d.getText st = ((st.assemble d).buffer, st.assemble d) ∧
      d.getTooltip st = ((st.assemble d).buffer, st.assemble d)) := by
  refine ⟨fun h1 => ?_, fun h1 h2 => ?_, fun h1 h2 => ?_⟩ <;>
    simp [GpuStatusData.getText, GpuStatusData.getTooltip, h1, *]

/-- Witness for C9: the default (powered-off) snapshot yields "Off" and "GPU
powered off" and leaves the state unchanged. -/
theorem claim_C9_witness :
    GpuStatusData.getText {} ⟨[], ""⟩ = ("Off", ⟨[], ""⟩) ∧
    GpuStatusData.getTooltip {} ⟨[], ""⟩ = ("GPU powered off", ⟨[], ""⟩) :=
  (claim_C9 {} ⟨[], ""⟩).1 rfl

/-- Claim C1: the pruning pass produces exactly the concatenation, in original
order, of the default template's lines all of whose placeholder fields the
source reports available (each line verbatim, terminator included); a source
with no available fields yields the empty string; and a line with zero
placeholders is always retained. -/
theorem claim_C1 (avail : Field → Bool) :
    assembleAvailables avail = some (String.mk (prunedSpec avail)) ∧
    assembleAvailables (fun _ => false) = some "" ∧
    (∀ l : List Char, lineMatches l = [] → lineAllAvailable avail l = some true) := by
  refine ⟨assembleAvailables_eq avail, by set_option maxRecDepth 100000 in decide,
    fun l h => ?_⟩
  unfold lineAllAvailable
  rw [h]
  rfl

/-- Witness for C1: a line without placeholders passes the availability check
under any source. -/
theorem claim_C1_witness :
    lineAllAvailable (fun _ => true) ("plain text line").data = some true :=
  (claim_C1 (fun _ => true)).2.2 ("plain text line").data (by decide)

/-- Claim C8: the parser is pure, so reparsing the pruning pass's output gives
exactly the chunk sequence of parsing the independently assembled
concatenation of the retained lines of the default template. -/
theorem claim_C8 (avail : Field → Bool) (s : String)
    (h : assembleAvailables avail = some s) :
    parse s = parse (String.mk (prunedSpec avail)) := by
  rw [assembleAvailables_eq avail] at h
  cases h
  rfl

/-- Witness for C8: the all-available source keeps every line, and reparsing
that output equals parsing the assembled retained-line text. -/
theorem claim_C8_witness :
    parse DEFAULT_FORMAT = parse (String.mk (prunedSpec (fun _ => true))) :=
  claim_C8 (fun _ => true) DEFAULT_FORMAT
    (by set_option maxRecDepth 100000 in decide)

/-- Claim C4: a recognized unit-requiring field name (temperature, power,
mem_used, mem_total, tx, rx) without a unit is the `NoUnit` parse error —
whatever the precision text — and the first unit/precision error among a
template's placeholders makes `parse` return exactly that error, producing no
chunk list; when no placeholder errs, `parse` succeeds. -/
theorem claim_C4 :
    (∀ (name : String) (p : Option String), name ∈ unitRequiredNames →
      fieldOfSegments ⟨name, none, p⟩ = .error .noUnit) ∧
    (∀ (t : String) (e : UnitParseError),
      firstSegError (scan t.data).1 = some e → parse t = .error e) ∧
    (∀ t : String, firstSegError (scan t.data).1 = none → ∃ cs, parse t = .ok cs) := by
  refine ⟨?_, ?_, ?_⟩
  · intro name p h
    simp only [unitRequiredNames, List.mem_cons, List.not_mem_nil, or_false] at h
    rcases h with rfl | rfl | rfl | rfl | rfl | rfl <;> rfl
  · intro t e he
    exact (parseGo_spec (scan t.data).1 (scan t.data).2).1 e he
  · intro t hn
    exact (parseGo_spec (scan t.data).1 (scan t.data).2).2 hn

/-- Witness for C4: "{temperature}" hits the NoUnit error and the whole parse
of the template returns it. -/
theorem claim_C4_witness :
    fieldOfSegments ⟨"temperature", none, none⟩ = .error .noUnit ∧
    parse "{temperature}" = .error .noUnit := by
  constructor
  · exact claim_C4.1 "temperature" none (by decide)
  · exact claim_C4.2.1 "{temperature}" .noUnit (by decide)

/-- Claim C5: an unrecognized placeholder name parses to `Unknown` and never
to an error, whatever unit or precision text accompanies it; a template that
is exactly such a placeholder parses to a `Variable(Unknown)` chunk (plus the
trailing empty static run); and rendering `Unknown` appends exactly "N/A". -/
theorem claim_C5 (name : List Char) (u p : Option String) (d : GpuStatusData)
    (buf : List Char) (hne : name ≠ []) (hw : ∀ c ∈ name, wordChar c = true)
    (hnr : String.mk name ∉ recognizedNames) :
    fieldOfSegments ⟨String.mk name, u, p⟩ = .ok .unknown ∧
    parse (String.mk ('{' :: (name ++ ['}']))) =
      .ok [Chunk.var .unknown, Chunk.static ""] ∧
    d.writeField .unknown buf = .ok (buf ++ ("N/A").data) := by
  have hall : ∀ (u' p' : Option String),
      fieldOfSegments ⟨String.mk name, u', p'⟩ = .ok .unknown := by
    intro u' p'
    simp only [recognizedNames, List.mem_cons, List.mem_singleton, not_or] at hnr
    obtain ⟨h1, h2, h3, h4, h5, h6, h7, h8, h9, h10, h11, h12, h13, h14⟩ := hnr
    simp [fieldOfSegments, MemField.fromStr, U8Field.fromStr,
      h1, h2, h3, h4, h5, h6, h7, h8, h9, h10, h11, h12, h13, h14]
  refine ⟨hall u p, ?_, ?_⟩
  · show parseGo (scan (String.mk ('{' :: (name ++ ['}']))).data).1
      (scan (String.mk ('{' :: (name ++ ['}']))).data).2 = _
    rw [show (String.mk ('{' :: (name ++ ['}']))).data = '{' :: (name ++ ['}']) from rfl,
      scan_simple hne hw]
    simp only [parseGo, hall none none]
    rfl
  · simp only [GpuStatusData.writeField, Except.map]
    rw [trim_append buf _ (.inl (by decide)),
      trim_of_no_dot (by decide) 0]

/-- Witness for C5: "{unknown_xyz}" parses to an Unknown variable chunk and
renders as "N/A". -/
theorem claim_C5_witness :
    fieldOfSegments ⟨"unknown_xyz", some "MiB", some "2"⟩ = .ok .unknown ∧
    parse "{unknown_xyz}" = .ok [Chunk.var .unknown, Chunk.static ""] ∧
    GpuStatusData.writeField {} .unknown [] = .ok (("N/A").data) := by
  have h := claim_C5 ("unknown_xyz").data (some "MiB") (some "2") {} []
    (by decide) (by decide) (by decide)
  exact ⟨h.1, h.2.1, h.2.2⟩

/-- Claim C10: template text with no placeholder match — unmatched braces,
empty braces, malformed brace contents — never causes a parse error: the
template parses to a single static chunk holding it verbatim, and assembling
that chunk reproduces it verbatim in the output buffer under every snapshot. -/
theorem claim_C10 (t : String) (h : (scan t.data).1 = []) :
    parse t = .ok [Chunk.static t] ∧
    (∀ (d : GpuStatusData) (b : String),
      (State.assemble ⟨[Chunk.static t], b⟩ d).buffer = t) := by
  have hfin : (scan t.data).2 = t.data := by
    have := scanA_no_match (t.data.length + 1) t.data [] h
    simpa [scan] using this
  constructor
  · show parseGo (scan t.data).1 (scan t.data).2 = _
    rw [h, hfin]
    simp [parseGo, string_mk_data]
  · intro d b
    simp [State.assemble, assembleStep, string_mk_data]

/-- Witness for C10: a template of empty braces, malformed brace contents and
an unmatched open brace parses as one verbatim static chunk and renders
verbatim. -/
theorem claim_C10_witness :
    parse "{} {a.b} {temp:c.x} \x7b" = .ok [Chunk.static "{} {a.b} {temp:c.x} \x7b"] ∧
    (State.assemble ⟨[Chunk.static "{} {a.b} {temp:c.x} \x7b"], ""⟩ {}).buffer
      = "{} {a.b} {temp:c.x} \x7b" := by
  have h := claim_C10 "{} {a.b} {temp:c.x} \x7b" (by decide)
  exact ⟨h.1, h.2 {} ""⟩

end GpuUsage
